import Mathlib

/-!
# Verification of the W3C microdata walker of `go-microdata-extract`

Shallow embedding of the microdata extraction algorithm
(`W3CMicrodata` / `parseW3CMicrodata` / `parseProperties` / `getAttr` /
`getAttrVal` / `appendValue` / `getTextContent`) and proofs of the
specification's claims about it.

The DOM is consumed already parsed (HTML parsing is out of scope per the
spec).  We model `html.Node` faithfully to its pointer structure: each
node carries its first child and its next sibling, with `nil` for the
null pointer, so the source's `for c := n.FirstChild; c != nil;
c = c.NextSibling` loops become structural recursion on the sibling
chain.

Go string helpers used by the walker (`strings.TrimSpace`,
`strings.HasPrefix`, `strings.HasSuffix`) are embedded as executable
character-list functions so that every definition evaluates on concrete
inputs.
-/

namespace Microdata

/-! ## Embedded Go string helpers -/

/-- Whitespace as trimmed by `strings.TrimSpace` (restricted to the
ASCII space characters; the walker's claims involve no exotic Unicode
whitespace). -/
def goIsSpace (c : Char) : Bool :=
  c = ' ' ∨ c = '\t' ∨ c = '\n' ∨ c = '\x0b' ∨ c = '\x0c' ∨ c = '\r'

/-- Leading and trailing whitespace removal on a character list. -/
def trimChars (l : List Char) : List Char :=
  ((l.dropWhile goIsSpace).reverse.dropWhile goIsSpace).reverse

/-- Embedding of `strings.TrimSpace`. -/
def strTrim (s : String) : String :=
  ⟨trimChars s.data⟩

/-- Whether the first list is an initial segment of the second. -/
def listIsPre : List Char → List Char → Bool
  | [], _ => true
  | _ :: _, [] => false
  | a :: as, b :: bs => a = b && listIsPre as bs

/-- Embedding of `strings.HasPrefix s pat`. -/
def strStarts (s pat : String) : Bool :=
  listIsPre pat.data s.data

/-- Embedding of `strings.HasSuffix s pat`. -/
def strEnds (s pat : String) : Bool :=
  listIsPre pat.data.reverse s.data.reverse

/-! ## The DOM model -/

/-- One HTML attribute: an ordered (key, value) pair on an element. -/
structure HAttr where
  key : String
  val : String
deriving DecidableEq, Repr

/-- A parsed DOM node, mirroring `html.Node`'s `FirstChild` /
`NextSibling` pointer structure.  `element` mirrors `html.ElementNode`
(tag name, ordered attribute list, first child, next sibling), `text`
mirrors `html.TextNode` (text nodes have no children in a parsed DOM),
`container` stands for the remaining node kinds (`DocumentNode`,
`CommentNode`, ...) whose attributes and data the walker never reads,
and `nil` is the null pointer ending a sibling chain. -/
inductive HNode where
  | nil
  | element (tag : String) (attrs : List HAttr) (firstChild nextSibling : HNode)
  | text (data : String) (nextSibling : HNode)
  | container (firstChild nextSibling : HNode)
deriving DecidableEq, Repr

/-- Embedding of `getAttr`: whether the attribute list contains `key`. -/
def getAttr (attrs : List HAttr) (key : String) : Bool :=
  attrs.any (fun a => a.key = key)

/-- Embedding of `getAttrVal`: the trimmed value of the first attribute
named `key`, or `""` when absent. -/
def getAttrVal (attrs : List HAttr) (key : String) : String :=
  match attrs with
  | [] => ""
  | a :: rest => if a.key = key then strTrim a.val else getAttrVal rest key

/-- Untrimmed first-match attribute lookup (`""` when absent); used to
relate `getAttrVal` to the raw attribute value. -/
def rawAttrVal (attrs : List HAttr) (key : String) : String :=
  match attrs with
  | [] => ""
  | a :: rest => if a.key = key then a.val else rawAttrVal rest key

/-- Lookup of the raw (untrimmed) `value` attribute inlined in
`getTextContent`: the first attribute named `value`, or `""`. -/
def valueAttrRaw (attrs : List HAttr) : String :=
  match attrs with
  | [] => ""
  | a :: rest => if a.key = "value" then a.val else valueAttrRaw rest

/-! ## Text content -/

/-- The inner closure `f` of `getTextContent`, run over a node and all
its following siblings, threading the string builder `sb`: a text node's
data is appended only while `sb` is still empty; every element node
appends its raw `value` attribute; children are visited in pre-order. -/
def tcSibs (n : HNode) (sb : String) : String :=
  match n with
  | .nil => sb
  | .text d ns => tcSibs ns (if sb = "" then d else sb)
  | .element _ attrs fc ns => tcSibs ns (tcSibs fc (sb ++ valueAttrRaw attrs))
  | .container fc ns => tcSibs ns (tcSibs fc sb)

/-- The closure `f` applied to a single node (the root call of
`getTextContent` does not visit the root's siblings). -/
def tcNode (n : HNode) (sb : String) : String :=
  match n with
  | .nil => sb
  | .text d _ => if sb = "" then d else sb
  | .element _ attrs fc _ => tcSibs fc (sb ++ valueAttrRaw attrs)
  | .container fc _ => tcSibs fc sb

/-- Embedding of `getTextContent`: run the builder over the node's
subtree (the node itself included) and trim the result. -/
def getTextContent (n : HNode) : String :=
  strTrim (tcNode n "")

/-! ## Items and property maps -/

mutual
/-- A value stored in a `MicrodataItem`'s property map.  In the source
the map is `map[string]any` holding a `string`, a `*MicrodataItem`, or a
`[]any` of those; we model the `any` as this closed sum. -/
inductive PropValue where
  | vstr (s : String)
  | vitem (it : MItem)
  | vseq (vs : List PropValue)

/-- Embedding of `MicrodataItem`: `Type` (the Go zero value `""` when
the `itemtype` attribute is absent or blank), optional `ID` (`*string`,
`nil` modelled as `none`), and the property map. -/
inductive MItem where
  | mk (type : String) (id : Option String) (props : List (String × PropValue))
end

/-- Accessor for the `Type` field. -/
def MItem.type : MItem → String
  | .mk t _ _ => t

/-- Accessor for the `ID` field. -/
def MItem.id : MItem → Option String
  | .mk _ i _ => i

/-- Accessor for the `Properties` field. -/
def MItem.props : MItem → List (String × PropValue)
  | .mk _ _ ps => ps

/-- The property map `map[string]any`, modelled as an association list
with at most one binding per key. -/
abbrev PropMap := List (String × PropValue)

/-- Go map lookup `item.Properties[prop]`: `none` models the `nil`
interface value returned for a missing key. -/
def pmGet (m : PropMap) (k : String) : Option PropValue :=
  match m with
  | [] => none
  | (k', v) :: rest => if k' = k then some v else pmGet rest k

/-- Go map store `item.Properties[prop] = v`: replace the binding in
place when the key exists, otherwise add a new binding. -/
def pmSet (m : PropMap) (k : String) (v : PropValue) : PropMap :=
  match m with
  | [] => [(k, v)]
  | (k', v') :: rest => if k' = k then (k', v) :: rest else (k', v') :: pmSet rest k v

/-- Embedding of `appendValue`: a first value is stored as-is, a second
turns the slot into a two-element sequence, and an existing sequence is
appended to. -/
def appendValue (existing : Option PropValue) (value : PropValue) : PropValue :=
  match existing with
  | none => value
  | some (.vseq vs) => .vseq (vs ++ [value])
  | some e => .vseq [e, value]

/-! ## URL resolution -/

/-- Modelled from the spec: the scheme/host split done via
`net/url.Parse` (library code outside this repository).  Splits the
input at the first `://` occurrence; `none` when there is none. -/
def splitScheme (l : List Char) : Option (List Char × List Char) :=
  match l with
  | [] => none
  | c :: cs =>
      if listIsPre [':', '/', '/'] (c :: cs) then some ([], cs.drop 2)
      else
        match splitScheme cs with
        | none => none
        | some (sch, rest) => some (c :: sch, rest)

/-- Modelled from the spec: the "`scheme://host` derived from the base
URL" (`fmt.Sprintf("%s://%s", parsedURL.Scheme, parsedURL.Host)` after
`url.Parse`), the base's path, query and fragment being discarded — the
host part ends at the first `/`, `?` or `#`.  With no `://` separator
both scheme and host come out empty. -/
def schemeHost (u : String) : String :=
  match splitScheme u.data with
  | none => "://"
  | some (sch, rest) =>
      (⟨sch⟩ : String) ++ "://" ++ (⟨rest.takeWhile (fun c => c ≠ '/' ∧ c ≠ '?' ∧ c ≠ '#')⟩ : String)

/-- The value-resolution block of `parseProperties` for a
property-bearing element without `itemscope`: `datetime` attribute
first, then the `url` / `*Url` href rule, else the element's text
content. -/
def resolveValue (URL : String) (prop : String) (n : HNode) (attrs : List HAttr) : String :=
  let value := getTextContent n
  let datetime := getAttrVal attrs "datetime"
  if datetime ≠ "" then datetime
  else if prop = "url" ∨ strEnds prop "Url" then
    let href := getAttrVal attrs "href"
    if strStarts href "//" ∨ strStarts href "http://" ∨ strStarts href "https://" then href
    else schemeHost URL ++ href
  else value

/-! ## The walker -/

/-- The `Type` written by `parseW3CMicrodata` / `parseProperties`: the
`itemtype` attribute when non-blank, otherwise the Go zero value `""`. -/
def itemTypeOf (attrs : List HAttr) : String :=
  let itemType := getAttrVal attrs "itemtype"
  if itemType ≠ "" then itemType else ""

/-- The `ID` written by `parseW3CMicrodata` / `parseProperties`: a
pointer to the `itemid` attribute value when non-blank, otherwise the
nil pointer. -/
def itemIdOf (attrs : List HAttr) : Option String :=
  let itemID := getAttrVal attrs "itemid"
  if itemID ≠ "" then some itemID else none

/-- Embedding of the `parseProperties` loop, started at a first-child
pointer and run along the sibling chain, threading the enclosing item's
property map.  Only element nodes are considered; a non-empty `itemprop`
either binds a nested item (`itemscope`, built by the same recursion on
the child's subtree) or a resolved string value; an element without
`itemprop` is descended through. -/
def parseProps (URL : String) (n : HNode) (m : PropMap) : PropMap :=
  match n with
  | .nil => m
  | .text _ ns => parseProps URL ns m
  | .container _ ns => parseProps URL ns m
  | .element tag attrs fc ns =>
      let prop := getAttrVal attrs "itemprop"
      if prop ≠ "" then
        if getAttr attrs "itemscope" then
          let subItem : MItem := .mk (itemTypeOf attrs) (itemIdOf attrs) (parseProps URL fc [])
          parseProps URL ns (pmSet m prop (appendValue (pmGet m prop) (.vitem subItem)))
        else
          parseProps URL ns (pmSet m prop (appendValue (pmGet m prop)
            (.vstr (resolveValue URL prop (.element tag attrs fc ns) attrs))))
      else
        parseProps URL ns (parseProps URL fc m)

/-- Building the `MicrodataItem` for an `itemscope` element from its
attributes and first child: `itemtype`, `itemid`, then `parseProperties`
over the children.  The same code shape serves the top-level items of
`parseW3CMicrodata` and the nested sub-items of `parseProperties`. -/
def buildItem (URL : String) (attrs : List HAttr) (fc : HNode) : MItem :=
  .mk (itemTypeOf attrs) (itemIdOf attrs) (parseProps URL fc [])

/-- The recursive `parseNode` closure of `parseW3CMicrodata`, run along
a sibling chain: an element carrying `itemscope` contributes one item
and its subtree is handed to `parseProperties` only; any other node is
descended through. -/
def parseNodeSibs (URL : String) (n : HNode) : List MItem :=
  match n with
  | .nil => []
  | .text _ ns => parseNodeSibs URL ns
  | .container fc ns => parseNodeSibs URL fc ++ parseNodeSibs URL ns
  | .element _ attrs fc ns =>
      (if getAttr attrs "itemscope" then [buildItem URL attrs fc]
       else parseNodeSibs URL fc) ++ parseNodeSibs URL ns

/-- The root call `parseNode(doc)`: the document root has no siblings,
so only the node itself and its subtree are visited. -/
def parseNode (URL : String) (n : HNode) : List MItem :=
  match n with
  | .nil => []
  | .text _ _ => []
  | .container fc _ => parseNodeSibs URL fc
  | .element _ attrs fc _ =>
      if getAttr attrs "itemscope" then [buildItem URL attrs fc]
      else parseNodeSibs URL fc

/-- Embedding of `parseW3CMicrodata`: walk the already-parsed document;
the local `errors` slice is never appended to, so the error component is
always empty. -/
def parseW3CMicrodata (URL : String) (doc : HNode) : List MItem × List String :=
  (parseNode URL doc, [])

/-- Embedding of `W3CMicrodata`: re-wrap each parsed item (copying type,
properties, and the `ID` pointer when non-nil) and pass the errors on. -/
def W3CMicrodata (URL : String) (doc : HNode) : List MItem × List String :=
  let (items, errors) := parseW3CMicrodata URL doc
  (items.map (fun it => match it with
    | .mk t id props => .mk t id props), errors)

/-! ## Specification-side characterizations

The spec describes text content by a pre-order scan of the subtree, and
the property map by a document-order accumulation of discovered
(name, value) pairs.  The following definitions realize those wordings;
the theorems below relate them to the source-shaped recursions. -/

/-- The pre-order (document-order) list of the nodes of a sibling chain:
each node is followed by its subtree's nodes, then its siblings'. -/
def preorderSibs (n : HNode) : List HNode :=
  match n with
  | .nil => []
  | .text d ns => .text d ns :: preorderSibs ns
  | .element tag attrs fc ns => .element tag attrs fc ns :: (preorderSibs fc ++ preorderSibs ns)
  | .container fc ns => .container fc ns :: (preorderSibs fc ++ preorderSibs ns)

/-- The pre-order list of a single node's subtree (root included,
siblings of the root excluded). -/
def preorderNode (n : HNode) : List HNode :=
  match n with
  | .nil => []
  | .text d ns => [.text d ns]
  | .element tag attrs fc _ => .element tag attrs fc .nil :: preorderSibs fc
  | .container fc _ => .container fc .nil :: preorderSibs fc

/-- One step of the spec's text-content scan: a text node contributes
its data only while the accumulation is empty; an element contributes
its raw `value` attribute. -/
def tcStep (sb : String) (n : HNode) : String :=
  match n with
  | .text d _ => if sb = "" then d else sb
  | .element _ attrs _ _ => sb ++ valueAttrRaw attrs
  | _ => sb

/-- Text content as the spec words it: fold the scan step over the
pre-order node list of the subtree and trim. -/
def textContentClaim (n : HNode) : String :=
  strTrim ((preorderNode n).foldl tcStep "")

/-- The document-order (property name, value) pairs produced by the
`parseProperties` scan started at a first-child pointer: a non-empty
`itemprop` contributes one pair (a nested item under `itemscope`,
otherwise the resolved string) and ends the descent; an element without
`itemprop` is descended through; non-element nodes are skipped. -/
def scanPairs (URL : String) (n : HNode) : List (String × PropValue) :=
  match n with
  | .nil => []
  | .text _ ns => scanPairs URL ns
  | .container _ ns => scanPairs URL ns
  | .element tag attrs fc ns =>
      let prop := getAttrVal attrs "itemprop"
      (if prop ≠ "" then
        [(prop, if getAttr attrs "itemscope" then .vitem (buildItem URL attrs fc)
                else .vstr (resolveValue URL prop (.element tag attrs fc ns) attrs))]
      else scanPairs URL fc) ++ scanPairs URL ns

/-- Fold of the source's map-update step (`item.Properties[prop] =
appendValue(item.Properties[prop], v)`) over a pair list. -/
def bindAll (m : PropMap) (l : List (String × PropValue)) : PropMap :=
  match l with
  | [] => m
  | (k, v) :: rest => bindAll (pmSet m k (appendValue (pmGet m k) v)) rest

/-- The values discovered for one property name, kept in list order. -/
def valuesOf (p : String) (l : List (String × PropValue)) : List PropValue :=
  match l with
  | [] => []
  | (q, v) :: rest => if q = p then v :: valuesOf p rest else valuesOf p rest

/-- Left fold of `appendValue` into an optional slot. -/
def addVals (o : Option PropValue) (vs : List PropValue) : Option PropValue :=
  match vs with
  | [] => o
  | v :: rest => addVals (some (appendValue o v)) rest

/-- A value as produced by the scan itself: a string or a nested item,
never a sequence (sequences arise only by slot promotion). -/
def notSeq (v : PropValue) : Bool :=
  match v with
  | .vseq _ => false
  | _ => true

/-- The slot shape the spec describes: no binding for no value, the bare
value for a single one, the in-order sequence for several. -/
def slotOf (vs : List PropValue) : Option PropValue :=
  match vs with
  | [] => none
  | [v] => some v
  | v :: rest => some (.vseq (v :: rest))

/-- The one or more values held by a slot, as a list (`[]` for a missing
binding, the elements for a promoted sequence, the value itself
otherwise). -/
def flattenSlot (o : Option PropValue) : List PropValue :=
  match o with
  | none => []
  | some (.vseq l) => l
  | some v => [v]

/-- The property-bearing elements reached by the `parseProperties` scan
started at a first-child pointer: descent stops at any element with a
non-empty `itemprop` (that element is collected) and continues through
elements without one. -/
def scanElems (n : HNode) : List HNode :=
  match n with
  | .nil => []
  | .text _ ns => scanElems ns
  | .container _ ns => scanElems ns
  | .element tag attrs fc ns =>
      (if getAttrVal attrs "itemprop" ≠ "" then [.element tag attrs fc ns]
       else scanElems fc) ++ scanElems ns

/-- Whether any element of the sibling chain's forest carries the
`itemscope` attribute. -/
def hasItemscope (n : HNode) : Bool :=
  match n with
  | .nil => false
  | .text _ ns => hasItemscope ns
  | .container fc ns => hasItemscope fc || hasItemscope ns
  | .element _ attrs fc ns => getAttr attrs "itemscope" || hasItemscope fc || hasItemscope ns

/-! ## Helper lemmas -/

theorem tcSibs_eq_foldl (n : HNode) : ∀ sb : String, tcSibs n sb = (preorderSibs n).foldl tcStep sb := by
  induction n with
  | nil => intro sb; simp [tcSibs, preorderSibs]
  | text d ns ih => intro sb; simp [tcSibs, preorderSibs, tcStep, ih]
  | element tag attrs fc ns ihf ihn =>
      intro sb
      simp [tcSibs, preorderSibs, List.foldl_append, tcStep, ihf, ihn]
  | container fc ns ihf ihn =>
      intro sb
      simp [tcSibs, preorderSibs, List.foldl_append, tcStep, ihf, ihn]

theorem getTextContent_eq_claim (n : HNode) : getTextContent n = textContentClaim n := by
  cases n with
  | nil => rfl
  | text d ns => simp [getTextContent, textContentClaim, tcNode, preorderNode, tcStep]
  | element tag attrs fc ns =>
      simp [getTextContent, textContentClaim, tcNode, preorderNode, tcStep, tcSibs_eq_foldl]
  | container fc ns =>
      simp [getTextContent, textContentClaim, tcNode, preorderNode, tcStep, tcSibs_eq_foldl]

theorem bindAll_append (m : PropMap) (l₁ l₂ : List (String × PropValue)) :
    bindAll m (l₁ ++ l₂) = bindAll (bindAll m l₁) l₂ := by
  induction l₁ generalizing m with
  | nil => simp [bindAll]
  | cons a rest ih => cases a; simp [bindAll, ih]

theorem parseProps_eq_bindAll (URL : String) (n : HNode) :
    ∀ m : PropMap, parseProps URL n m = bindAll m (scanPairs URL n) := by
  induction n with
  | nil => intro m; simp [parseProps, scanPairs, bindAll]
  | text d ns ih => intro m; simp [parseProps, scanPairs, ih]
  | container fc ns ihf ihn => intro m; simp [parseProps, scanPairs, ihn]
  | element tag attrs fc ns ihf ihn =>
      intro m
      by_cases hp : getAttrVal attrs "itemprop" = ""
      · simp [parseProps, scanPairs, hp, bindAll_append, ihf, ihn]
      · by_cases hs : getAttr attrs "itemscope"
        · simp [parseProps, scanPairs, hp, hs, bindAll, buildItem, ihn]
        · simp [parseProps, scanPairs, hp, hs, bindAll, ihn]

theorem pmGet_pmSet (m : PropMap) (k p : String) (v : PropValue) :
    pmGet (pmSet m k v) p = if k = p then some v else pmGet m p := by
  induction m with
  | nil => by_cases h : k = p <;> simp [pmSet, pmGet, h]
  | cons a rest ih =>
      obtain ⟨k', v'⟩ := a
      by_cases h1 : k' = k
      · subst h1
        by_cases h2 : k' = p <;> simp [pmSet, pmGet, h2]
      · by_cases h2 : k' = p
        · subst h2
          have h3 : ¬(k = k') := fun hh => h1 hh.symm
          simp [pmSet, pmGet, h1, h3]
        · simp [pmSet, pmGet, h1, h2, ih]

theorem pmGet_bindAll (l : List (String × PropValue)) (p : String) :
    ∀ m : PropMap, pmGet (bindAll m l) p = addVals (pmGet m p) (valuesOf p l) := by
  induction l with
  | nil => intro m; simp [bindAll, valuesOf, addVals]
  | cons a rest ih =>
      obtain ⟨q, v⟩ := a
      intro m
      by_cases h : q = p
      · subst h
        simp [bindAll, valuesOf, addVals, ih, pmGet_pmSet]
      · simp [bindAll, valuesOf, addVals, h, ih, pmGet_pmSet]

theorem scanPairs_notSeq (URL : String) (n : HNode) :
    ∀ pv ∈ scanPairs URL n, notSeq pv.2 := by
  induction n with
  | nil => simp [scanPairs]
  | text d ns ih => simpa [scanPairs] using ih
  | container fc ns ihf ihn => simpa [scanPairs] using ihn
  | element tag attrs fc ns ihf ihn =>
      intro pv hpv
      by_cases hp : getAttrVal attrs "itemprop" = ""
      · simp [scanPairs, hp] at hpv
        rcases hpv with h | h
        · exact ihf pv h
        · exact ihn pv h
      · simp [scanPairs, hp] at hpv
        rcases hpv with h | h
        · by_cases hs : getAttr attrs "itemscope" <;> simp_all [notSeq]
        · exact ihn pv h

theorem addVals_vseq (l : List PropValue) (vs : List PropValue) :
    addVals (some (.vseq l)) vs = some (.vseq (l ++ vs)) := by
  induction vs generalizing l with
  | nil => simp [addVals]
  | cons v rest ih => simp [addVals, appendValue, ih]

theorem addVals_none_eq_slotOf (vs : List PropValue) (h : ∀ v ∈ vs, notSeq v) :
    addVals none vs = slotOf vs := by
  match vs with
  | [] => simp [addVals, slotOf]
  | [v] => simp [addVals, appendValue, slotOf]
  | v :: w :: rest =>
      have hv : notSeq v := h v (by simp)
      have hvw : appendValue (some v) w = .vseq [v, w] := by
        cases v <;> simp_all [appendValue, notSeq]
      simp only [addVals]
      rw [show appendValue none v = v from rfl, hvw, addVals_vseq]
      simp [slotOf]

theorem valuesOf_notSeq (p : String) (l : List (String × PropValue))
    (hall : ∀ pv ∈ l, notSeq pv.2) : ∀ w ∈ valuesOf p l, notSeq w := by
  induction l with
  | nil => simp [valuesOf]
  | cons a rest ih =>
      obtain ⟨q, u⟩ := a
      intro w hw
      by_cases hq : q = p
      · simp [valuesOf, hq] at hw
        rcases hw with h | h
        · subst h; exact hall (q, w) (by simp)
        · exact ih (fun pv hpv => hall pv (by simp [hpv])) w h
      · simp [valuesOf, hq] at hw
        exact ih (fun pv hpv => hall pv (by simp [hpv])) w hw

/-- Every slot of an item's final property map holds exactly the
document-order values the scan discovered for that name: none, the bare
value, or their sequence. -/
theorem pmGet_parseProps (URL : String) (n : HNode) (p : String) :
    pmGet (parseProps URL n []) p = slotOf (valuesOf p (scanPairs URL n)) := by
  rw [parseProps_eq_bindAll, pmGet_bindAll]
  simp only [pmGet]
  exact addVals_none_eq_slotOf _ (valuesOf_notSeq p _ (scanPairs_notSeq URL n))

theorem flattenSlot_slotOf (vs : List PropValue) (h : ∀ v ∈ vs, notSeq v) :
    flattenSlot (slotOf vs) = vs := by
  match vs with
  | [] => simp [slotOf, flattenSlot]
  | [v] =>
      have hv : notSeq v := h v (by simp)
      cases v <;> simp_all [slotOf, flattenSlot, notSeq]
  | v :: w :: rest => simp [slotOf, flattenSlot]

/-- The flattened content of every slot is exactly the document-order
value list the scan discovered for that property name. -/
theorem flattenSlot_parseProps (URL : String) (n : HNode) (p : String) :
    flattenSlot (pmGet (parseProps URL n []) p) = valuesOf p (scanPairs URL n) := by
  rw [pmGet_parseProps]
  exact flattenSlot_slotOf _ (valuesOf_notSeq p _ (scanPairs_notSeq URL n))

theorem mem_valuesOf (p : String) (v : PropValue) (l : List (String × PropValue))
    (h : (p, v) ∈ l) : v ∈ valuesOf p l := by
  induction l with
  | nil => simp at h
  | cons a rest ih =>
      obtain ⟨q, u⟩ := a
      rcases List.mem_cons.mp h with h1 | h1
      · obtain ⟨hq, hv⟩ := Prod.mk.injEq .. ▸ h1
        simp [valuesOf, hq.symm, hv]
      · by_cases hq : q = p <;> simp [valuesOf, hq, ih h1]

/-- A scan-reached element that carries `itemscope` contributes exactly
the nested item built from its subtree, under its `itemprop` name, to
the scan's pair list. -/
theorem scanElems_itemscope_pair (URL : String) (n : HNode) :
    ∀ tag attrs fc ns, (HNode.element tag attrs fc ns) ∈ scanElems n →
    getAttr attrs "itemscope" = true →
    (getAttrVal attrs "itemprop", PropValue.vitem (buildItem URL attrs fc)) ∈ scanPairs URL n := by
  induction n with
  | nil => simp [scanElems]
  | text d ns ih => simpa [scanElems, scanPairs] using ih
  | container fc ns ihf ihn => simpa [scanElems, scanPairs] using ihn
  | element tag' attrs' fc' ns' ihf ihn =>
      intro tag attrs fc ns hmem hscope
      by_cases hp : getAttrVal attrs' "itemprop" = ""
      · simp only [scanElems, hp, ne_eq, not_true_eq_false, if_false, List.mem_append] at hmem
        rcases hmem with h | h
        · exact List.mem_append_left _ (by simpa [scanPairs, hp] using ihf tag attrs fc ns h hscope)
        · simp only [scanPairs, hp, ne_eq, not_true_eq_false, if_false]
          exact List.mem_append_right _ (ihn tag attrs fc ns h hscope)
      · simp only [scanElems, hp, ne_eq, not_false_eq_true, if_true, List.mem_append,
          List.mem_singleton] at hmem
        rcases hmem with h | h
        · obtain ⟨ht, ha, hf, hn⟩ := HNode.element.injEq .. ▸ h.symm
          subst ht; subst ha; subst hf; subst hn
          simp [scanPairs, hp, hscope]
        · simp only [scanPairs, hp, ne_eq, not_false_eq_true, if_true]
          exact List.mem_append_right _ (ihn tag attrs fc ns h hscope)

theorem parseNodeSibs_of_no_itemscope (URL : String) (n : HNode)
    (h : hasItemscope n = false) : parseNodeSibs URL n = [] := by
  induction n with
  | nil => rfl
  | text d ns ih => simp_all [hasItemscope, parseNodeSibs]
  | container fc ns ihf ihn => simp_all [hasItemscope, parseNodeSibs]
  | element tag attrs fc ns ihf ihn => simp_all [hasItemscope, parseNodeSibs]

theorem parseNode_of_no_itemscope (URL : String) (n : HNode)
    (h : hasItemscope n = false) : parseNode URL n = [] := by
  cases n with
  | nil => rfl
  | text d ns => rfl
  | container fc ns =>
      simp only [hasItemscope, Bool.or_eq_false_iff] at h
      simp [parseNode, parseNodeSibs_of_no_itemscope URL fc h.1]
  | element tag attrs fc ns =>
      simp only [hasItemscope, Bool.or_eq_false_iff] at h
      simp [parseNode, h.1.1, parseNodeSibs_of_no_itemscope URL fc h.1.2]

theorem getAttrVal_eq_trim_raw (attrs : List HAttr) (key : String) :
    getAttrVal attrs key = strTrim (rawAttrVal attrs key) := by
  induction attrs with
  | nil => rfl
  | cons a rest ih =>
      by_cases h : a.key = key <;> simp [getAttrVal, rawAttrVal, h, ih]

/-! ## Claims -/

/-- C1: for every property-bearing element that matches neither the
datetime rule nor the URL rule, the extracted value is the element's
text content: the fold, over a pre-order scan of the element's subtree,
in which element nodes accumulate their `value` attributes in document
order and a text node contributes its data exactly while nothing has
been accumulated yet (so the first such text node short-circuits all
later text), trimmed of surrounding whitespace. -/
theorem C1_default_value_is_text_content
    (URL tag p : String) (attrs : List HAttr) (fc ns : HNode) (m : PropMap)
    (hp : getAttrVal attrs "itemprop" = p) (hne : p ≠ "")
    (hscope : getAttr attrs "itemscope" = false)
    (hdt : getAttrVal attrs "datetime" = "")
    (hurl : ¬(p = "url" ∨ strEnds p "Url" = true)) :
    parseProps URL (.element tag attrs fc ns) m =
      parseProps URL ns (pmSet m p (appendValue (pmGet m p)
        (.vstr (textContentClaim (.element tag attrs fc ns))))) := by
  subst hp
  simp [parseProps, resolveValue, hne, hscope, hdt, hurl, getTextContent_eq_claim]

theorem C1_witness :
    getAttrVal [⟨"itemprop", "name"⟩] "itemprop" = "name" ∧
    "name" ≠ "" ∧
    getAttr [⟨"itemprop", "name"⟩] "itemscope" = false ∧
    getAttrVal [⟨"itemprop", "name"⟩] "datetime" = "" ∧
    ¬("name" = "url" ∨ strEnds "name" "Url" = true) ∧
    parseProps "" (.element "span" [⟨"itemprop", "name"⟩] (.text " Alice " .nil) .nil) [] =
      [("name", PropValue.vstr "Alice")] :=
  ⟨rfl, by decide, rfl, rfl, by decide,
    C1_default_value_is_text_content "" "span" "name" [⟨"itemprop", "name"⟩]
      (.text " Alice " .nil) .nil [] rfl (by decide) rfl rfl (by decide)⟩

/-- C3: for every property named `url` or ending in `Url` (case
sensitive) on an element matching no datetime rule, the value is the
href verbatim when it begins with `//`, `http://` or `https://`, and
otherwise the base URL's `scheme://host` concatenated with the href; in
particular href `/path` under base `http://host.example/base/page`
yields `http://host.example/path`. -/
theorem C3_url_property_resolution
    (URL tag p href : String) (attrs : List HAttr) (fc ns : HNode) (m : PropMap)
    (hp : getAttrVal attrs "itemprop" = p) (hne : p ≠ "")
    (hscope : getAttr attrs "itemscope" = false)
    (hdt : getAttrVal attrs "datetime" = "")
    (hurl : p = "url" ∨ strEnds p "Url" = true)
    (hhref : getAttrVal attrs "href" = href) :
    parseProps URL (.element tag attrs fc ns) m =
      parseProps URL ns (pmSet m p (appendValue (pmGet m p) (.vstr
        (if strStarts href "//" ∨ strStarts href "http://" ∨ strStarts href "https://"
         then href else schemeHost URL ++ href)))) ∧
    schemeHost "http://host.example/base/page" ++ "/path" = "http://host.example/path" := by
  constructor
  · subst hp; subst hhref
    simp [parseProps, resolveValue, hne, hscope, hdt, hurl]
  · rfl

theorem C3_witness :
    getAttrVal [⟨"itemprop", "url"⟩, ⟨"href", "/path"⟩] "itemprop" = "url" ∧
    "url" ≠ "" ∧
    getAttr [⟨"itemprop", "url"⟩, ⟨"href", "/path"⟩] "itemscope" = false ∧
    getAttrVal [⟨"itemprop", "url"⟩, ⟨"href", "/path"⟩] "datetime" = "" ∧
    ("url" = "url" ∨ strEnds "url" "Url" = true) ∧
    getAttrVal [⟨"itemprop", "url"⟩, ⟨"href", "/path"⟩] "href" = "/path" ∧
    parseProps "http://host.example/base/page"
        (.element "a" [⟨"itemprop", "url"⟩, ⟨"href", "/path"⟩] (.text "link" .nil) .nil) [] =
      [("url", PropValue.vstr "http://host.example/path")] :=
  ⟨rfl, by decide, rfl, rfl, Or.inl rfl, rfl,
    (C3_url_property_resolution "http://host.example/base/page" "a" "url" "/path"
      [⟨"itemprop", "url"⟩, ⟨"href", "/path"⟩] (.text "link" .nil) .nil []
      rfl (by decide) rfl rfl (Or.inl rfl) rfl).1⟩

/-- C6 (counterexample): the claim covers every property-bearing
element that carries a `datetime` attribute, but the source guards with
`if datetime != ""` after `getAttrVal`'s TrimSpace: here the element
carries `datetime=" "`, whose trimmed string is `""`, yet the bound
value is the text content `"T"` — the datetime rule does not fire, so
the attribute's trimmed string does not take precedence as claimed. -/
theorem C6_counterexample :
    getAttr [⟨"itemprop", "x"⟩, ⟨"datetime", " "⟩] "datetime" = true ∧
    strTrim (rawAttrVal [⟨"itemprop", "x"⟩, ⟨"datetime", " "⟩] "datetime") = "" ∧
    parseProps "http://h"
        (.element "span" [⟨"itemprop", "x"⟩, ⟨"datetime", " "⟩] (.text "T" .nil) .nil) [] =
      [("x", PropValue.vstr "T")] :=
  ⟨rfl, rfl, rfl⟩

/-- C6 (amended): for every property-bearing element whose `datetime`
attribute is non-empty after trimming, the extracted value is that
attribute's trimmed string, taking precedence over the URL rule and the
text-content rule (the hypotheses constrain neither the property name,
the href, nor the subtree); a present-but-blank `datetime` is treated
as absent and falls through to the other rules. -/
theorem C6_datetime_takes_precedence
    (URL tag p d : String) (attrs : List HAttr) (fc ns : HNode) (m : PropMap)
    (hp : getAttrVal attrs "itemprop" = p) (hne : p ≠ "")
    (hscope : getAttr attrs "itemscope" = false)
    (hdt : getAttrVal attrs "datetime" = d) (hdne : d ≠ "") :
    parseProps URL (.element tag attrs fc ns) m =
      parseProps URL ns (pmSet m p (appendValue (pmGet m p) (.vstr d))) ∧
    d = strTrim (rawAttrVal attrs "datetime") := by
  constructor
  · subst hp
    simp [parseProps, resolveValue, hne, hscope, hdt, hdne]
  · rw [← hdt, getAttrVal_eq_trim_raw]

theorem C6_witness :
    getAttrVal [⟨"itemprop", "dateUrl"⟩, ⟨"datetime", " 2024-01-02 "⟩, ⟨"href", "/x"⟩]
        "itemprop" = "dateUrl" ∧
    "dateUrl" ≠ "" ∧
    getAttr [⟨"itemprop", "dateUrl"⟩, ⟨"datetime", " 2024-01-02 "⟩, ⟨"href", "/x"⟩]
        "itemscope" = false ∧
    getAttrVal [⟨"itemprop", "dateUrl"⟩, ⟨"datetime", " 2024-01-02 "⟩, ⟨"href", "/x"⟩]
        "datetime" = "2024-01-02" ∧
    "2024-01-02" ≠ "" ∧
    parseProps "http://h" (.element "time"
        [⟨"itemprop", "dateUrl"⟩, ⟨"datetime", " 2024-01-02 "⟩, ⟨"href", "/x"⟩]
        (.text "January" .nil) .nil) [] =
      [("dateUrl", PropValue.vstr "2024-01-02")] :=
  ⟨rfl, by decide, rfl, rfl, by decide,
    (C6_datetime_takes_precedence "http://h" "time" "dateUrl" "2024-01-02"
      [⟨"itemprop", "dateUrl"⟩, ⟨"datetime", " 2024-01-02 "⟩, ⟨"href", "/x"⟩]
      (.text "January" .nil) .nil [] rfl (by decide) rfl rfl (by decide)).1⟩

/-- C10: for every property named `url` or ending in `Url` on an
element with no datetime attribute and an absent or blank href, the
extracted value is the base URL's `scheme://host` concatenated with the
empty href — the element's text content (the subtree is unconstrained)
is discarded. -/
theorem C10_url_property_without_href
    (URL tag p : String) (attrs : List HAttr) (fc ns : HNode) (m : PropMap)
    (hp : getAttrVal attrs "itemprop" = p) (hne : p ≠ "")
    (hscope : getAttr attrs "itemscope" = false)
    (hdt : getAttrVal attrs "datetime" = "")
    (hurl : p = "url" ∨ strEnds p "Url" = true)
    (hhref : getAttrVal attrs "href" = "") :
    parseProps URL (.element tag attrs fc ns) m =
      parseProps URL ns (pmSet m p (appendValue (pmGet m p) (.vstr (schemeHost URL ++ "")))) := by
  subst hp
  simp [parseProps, resolveValue, hne, hscope, hdt, hurl, hhref, strStarts, listIsPre]

theorem C10_witness :
    getAttrVal [⟨"itemprop", "homepageUrl"⟩] "itemprop" = "homepageUrl" ∧
    "homepageUrl" ≠ "" ∧
    getAttr [⟨"itemprop", "homepageUrl"⟩] "itemscope" = false ∧
    getAttrVal [⟨"itemprop", "homepageUrl"⟩] "datetime" = "" ∧
    ("homepageUrl" = "url" ∨ strEnds "homepageUrl" "Url" = true) ∧
    getAttrVal [⟨"itemprop", "homepageUrl"⟩] "href" = "" ∧
    parseProps "https://ex.org/a?q=1"
        (.element "span" [⟨"itemprop", "homepageUrl"⟩] (.text "ignored" .nil) .nil) [] =
      [("homepageUrl", PropValue.vstr "https://ex.org")] :=
  ⟨rfl, by decide, rfl, rfl, Or.inr (by decide), rfl,
    C10_url_property_without_href "https://ex.org/a?q=1" "span" "homepageUrl"
      [⟨"itemprop", "homepageUrl"⟩] (.text "ignored" .nil) .nil []
      rfl (by decide) rfl rfl (Or.inr (by decide)) rfl⟩

/-- C2 (counterexample): the claim quantifies over every
itemprop+itemscope element anywhere inside an item's subtree, but an
element whose path to the item root passes through an element with a
non-empty `itemprop` (and no `itemscope`) is never reached by the
property scan — that ancestor's subtree is value-resolved, not scanned.
Here `div[itemprop=b][itemscope]` sits below `span[itemprop=a]` inside
the outer item: the claim demands a `b` property holding a nested item,
yet the extraction binds nothing under `b`. -/
theorem C2_counterexample :
    parseNode ""
        (.container (.element "div" [⟨"itemscope", ""⟩]
          (.element "span" [⟨"itemprop", "a"⟩]
            (.element "div" [⟨"itemprop", "b"⟩, ⟨"itemscope", ""⟩]
              (.text "inner" .nil) .nil) .nil) .nil) .nil) =
      [.mk "" none [("a", PropValue.vstr "inner")]] ∧
    pmGet [("a", PropValue.vstr "inner")] "b" = none :=
  ⟨rfl, rfl⟩

/-- C2 (amended): for every element that the enclosing item's property
scan reaches (its intermediate ancestors below the item root all lack a
non-empty `itemprop`) and that carries both a non-empty `itemprop` and
`itemscope`, the extraction binds the nested item built from its subtree
among the values of that property on the enclosing item, and the
top-level result for the enclosing `itemscope` element is exactly its
single item, so the nested element yields no independent top-level
entry. -/
theorem C2_nested_scope_binding
    (URL rtag tag p : String) (rattrs attrs : List HAttr) (rfc rns fc ns : HNode)
    (hroot : getAttr rattrs "itemscope" = true)
    (hreach : (HNode.element tag attrs fc ns) ∈ scanElems rfc)
    (hp : getAttrVal attrs "itemprop" = p) (hne : p ≠ "")
    (hscope : getAttr attrs "itemscope" = true) :
    PropValue.vitem (buildItem URL attrs fc) ∈
        flattenSlot (pmGet (MItem.props (buildItem URL rattrs rfc)) p) ∧
    parseNode URL (.element rtag rattrs rfc rns) = [buildItem URL rattrs rfc] := by
  constructor
  · have hpair := scanElems_itemscope_pair URL rfc tag attrs fc ns hreach hscope
    rw [hp] at hpair
    show PropValue.vitem (buildItem URL attrs fc) ∈
      flattenSlot (pmGet (parseProps URL rfc []) p)
    rw [flattenSlot_parseProps]
    exact mem_valuesOf p _ _ hpair
  · simp [parseNode, hroot]

theorem C2_witness :
    getAttr [⟨"itemscope", ""⟩, ⟨"itemtype", "Person"⟩] "itemscope" = true ∧
    (HNode.element "span" [⟨"itemprop", "address"⟩, ⟨"itemscope", ""⟩]
        (.element "b" [⟨"itemprop", "city"⟩] (.text "Oslo" .nil) .nil) .nil) ∈
      scanElems (.element "span" [⟨"itemprop", "address"⟩, ⟨"itemscope", ""⟩]
        (.element "b" [⟨"itemprop", "city"⟩] (.text "Oslo" .nil) .nil) .nil) ∧
    getAttrVal [⟨"itemprop", "address"⟩, ⟨"itemscope", ""⟩] "itemprop" = "address" ∧
    "address" ≠ "" ∧
    getAttr [⟨"itemprop", "address"⟩, ⟨"itemscope", ""⟩] "itemscope" = true ∧
    PropValue.vitem (buildItem "" [⟨"itemprop", "address"⟩, ⟨"itemscope", ""⟩]
        (.element "b" [⟨"itemprop", "city"⟩] (.text "Oslo" .nil) .nil)) ∈
      flattenSlot (pmGet (MItem.props (buildItem "" [⟨"itemscope", ""⟩, ⟨"itemtype", "Person"⟩]
        (.element "span" [⟨"itemprop", "address"⟩, ⟨"itemscope", ""⟩]
          (.element "b" [⟨"itemprop", "city"⟩] (.text "Oslo" .nil) .nil) .nil))) "address") ∧
    parseNode "" (.element "div" [⟨"itemscope", ""⟩, ⟨"itemtype", "Person"⟩]
        (.element "span" [⟨"itemprop", "address"⟩, ⟨"itemscope", ""⟩]
          (.element "b" [⟨"itemprop", "city"⟩] (.text "Oslo" .nil) .nil) .nil) .nil) =
      [.mk "Person" none
        [("address", PropValue.vitem (.mk "" none [("city", PropValue.vstr "Oslo")]))]] :=
  ⟨rfl, List.mem_singleton.mpr rfl, rfl, by decide, rfl,
    (C2_nested_scope_binding "" "div" "span" "address"
      [⟨"itemscope", ""⟩, ⟨"itemtype", "Person"⟩]
      [⟨"itemprop", "address"⟩, ⟨"itemscope", ""⟩]
      (.element "span" [⟨"itemprop", "address"⟩, ⟨"itemscope", ""⟩]
        (.element "b" [⟨"itemprop", "city"⟩] (.text "Oslo" .nil) .nil) .nil) .nil
      (.element "b" [⟨"itemprop", "city"⟩] (.text "Oslo" .nil) .nil) .nil
      rfl (List.mem_singleton.mpr rfl) rfl (by decide) rfl).1,
    (C2_nested_scope_binding "" "div" "span" "address"
      [⟨"itemscope", ""⟩, ⟨"itemtype", "Person"⟩]
      [⟨"itemprop", "address"⟩, ⟨"itemscope", ""⟩]
      (.element "span" [⟨"itemprop", "address"⟩, ⟨"itemscope", ""⟩]
        (.element "b" [⟨"itemprop", "city"⟩] (.text "Oslo" .nil) .nil) .nil) .nil
      (.element "b" [⟨"itemprop", "city"⟩] (.text "Oslo" .nil) .nil) .nil
      rfl (List.mem_singleton.mpr rfl) rfl (by decide) rfl).2⟩

/-- C4 (counterexample): the claim makes the `id` field present exactly
when the `itemid` attribute is present, distinguishing "no id" from
"empty id"; but for a present-and-empty `itemid` the source's
`if itemID != ""` guard leaves `ID` nil, so the id is absent despite the
attribute being present. -/
theorem C4_counterexample :
    getAttr [⟨"itemscope", ""⟩, ⟨"itemid", ""⟩] "itemid" = true ∧
    parseNode "http://x"
        (.element "div" [⟨"itemscope", ""⟩, ⟨"itemid", ""⟩] .nil .nil) =
      [.mk "" none []] :=
  ⟨rfl, rfl⟩

/-- C4 (amended): the returned item's `id` field is present exactly when
the element carries an `itemid` attribute whose value is non-empty after
trimming, and when present it equals that trimmed attribute value (so a
present-but-blank `itemid` is indistinguishable from an absent one, and
surrounding whitespace is not preserved). -/
theorem C4_id_iff_nonblank_itemid (URL : String) (attrs : List HAttr) (fc : HNode) :
    (buildItem URL attrs fc).id =
      (if strTrim (rawAttrVal attrs "itemid") = "" then none
       else some (strTrim (rawAttrVal attrs "itemid"))) := by
  show itemIdOf attrs = _
  rw [itemIdOf, ← getAttrVal_eq_trim_raw]
  by_cases h : getAttrVal attrs "itemid" = "" <;> simp [h]

/-- C5: for every item and property name, the final slot is the
claim's accumulation of the document-order values discovered for that
name — absent for none, the bare value for one (string or nested item
alike), and the in-order sequence for several; in particular two sibling
`itemprop="color"` elements with texts `yellow` then `green` yield the
sequence `["yellow", "green"]`. -/
theorem C5_multivalue_accumulation (URL : String) (n : HNode) (p : String) :
    pmGet (parseProps URL n []) p = slotOf (valuesOf p (scanPairs URL n)) ∧
    parseNode "" (.container (.element "div" [⟨"itemscope", ""⟩]
        (.element "span" [⟨"itemprop", "color"⟩] (.text "yellow" .nil)
          (.element "span" [⟨"itemprop", "color"⟩] (.text "green" .nil) .nil)) .nil) .nil) =
      [.mk "" none [("color", PropValue.vseq [PropValue.vstr "yellow", PropValue.vstr "green"])]] :=
  ⟨pmGet_parseProps URL n p, rfl⟩

/-- C7: a document containing no `itemscope` element extracts to an
empty item sequence with an empty error sequence, and the error sequence
of the microdata walker is empty for every document and base URL. -/
theorem C7_no_itemscope_empty_result (URL : String) (doc : HNode) :
    (hasItemscope doc = false → W3CMicrodata URL doc = ([], [])) ∧
    (W3CMicrodata URL doc).2 = [] := by
  constructor
  · intro h
    simp [W3CMicrodata, parseW3CMicrodata, parseNode_of_no_itemscope URL doc h]
  · rfl

theorem C7_witness :
    hasItemscope (.container (.element "p" [⟨"class", "x"⟩] (.text "hello" .nil) .nil) .nil)
        = false ∧
    W3CMicrodata "http://h"
        (.container (.element "p" [⟨"class", "x"⟩] (.text "hello" .nil) .nil) .nil) = ([], []) :=
  ⟨rfl, (C7_no_itemscope_empty_result "http://h"
    (.container (.element "p" [⟨"class", "x"⟩] (.text "hello" .nil) .nil) .nil)).1 rfl⟩

/-- C8: the extraction is deterministic — two calls on equal documents
and equal base URLs return deep-equal results (item sequence and error
sequence alike).  The embedding is a pure function of its two arguments,
which is faithful because the source routine reads only its parameters
and per-call local state. -/
theorem C8_extraction_deterministic (URL URL' : String) (doc doc' : HNode)
    (hU : URL = URL') (hd : doc = doc') :
    W3CMicrodata URL doc = W3CMicrodata URL' doc' := by
  subst hU; subst hd; rfl

theorem C8_witness :
    ("http://h" : String) = "http://h" ∧
    W3CMicrodata "http://h"
        (.container (.element "div" [⟨"itemscope", ""⟩]
          (.element "i" [⟨"itemprop", "x"⟩] (.text "v" .nil) .nil) .nil) .nil) =
      W3CMicrodata "http://h"
        (.container (.element "div" [⟨"itemscope", ""⟩]
          (.element "i" [⟨"itemprop", "x"⟩] (.text "v" .nil) .nil) .nil) .nil) :=
  ⟨rfl, C8_extraction_deterministic "http://h" "http://h"
    (.container (.element "div" [⟨"itemscope", ""⟩]
      (.element "i" [⟨"itemprop", "x"⟩] (.text "v" .nil) .nil) .nil) .nil)
    (.container (.element "div" [⟨"itemscope", ""⟩]
      (.element "i" [⟨"itemprop", "x"⟩] (.text "v" .nil) .nil) .nil) .nil) rfl rfl⟩

/-- C9: an element carrying `itemscope` but no non-empty `itemprop`,
met during the property scan of an enclosing item, yields no item at
all: the scan step on it just descends, attaching its property-bearing
descendants to the enclosing item's map, it contributes no
(name, value) pair of its own, and the top-level result for the
enclosing `itemscope` element stays that element's single item. -/
theorem C9_propless_itemscope_transparent
    (URL tag rtag : String) (attrs rattrs : List HAttr) (fc ns rfc rns : HNode) (m : PropMap)
    (hp : getAttrVal attrs "itemprop" = "")
    (hsc : getAttr attrs "itemscope" = true)
    (hroot : getAttr rattrs "itemscope" = true) :
    parseProps URL (.element tag attrs fc ns) m = parseProps URL ns (parseProps URL fc m) ∧
    scanPairs URL (.element tag attrs fc ns) = scanPairs URL fc ++ scanPairs URL ns ∧
    parseNode URL (.element rtag rattrs rfc rns) = [buildItem URL rattrs rfc] := by
  refine ⟨?_, ?_, ?_⟩ <;> simp [parseProps, scanPairs, parseNode, hp, hroot]

theorem C9_witness :
    getAttrVal [⟨"itemscope", ""⟩] "itemprop" = "" ∧
    getAttr [⟨"itemscope", ""⟩] "itemscope" = true ∧
    getAttr [⟨"itemscope", ""⟩, ⟨"itemtype", "T"⟩] "itemscope" = true ∧
    parseNode "" (.element "div" [⟨"itemscope", ""⟩, ⟨"itemtype", "T"⟩]
        (.element "div" [⟨"itemscope", ""⟩]
          (.element "span" [⟨"itemprop", "x"⟩] (.text "v" .nil) .nil) .nil) .nil) =
      [buildItem "" [⟨"itemscope", ""⟩, ⟨"itemtype", "T"⟩]
        (.element "div" [⟨"itemscope", ""⟩]
          (.element "span" [⟨"itemprop", "x"⟩] (.text "v" .nil) .nil) .nil)] ∧
    parseNode "" (.element "div" [⟨"itemscope", ""⟩, ⟨"itemtype", "T"⟩]
        (.element "div" [⟨"itemscope", ""⟩]
          (.element "span" [⟨"itemprop", "x"⟩] (.text "v" .nil) .nil) .nil) .nil) =
      [.mk "T" none [("x", PropValue.vstr "v")]] :=
  ⟨rfl, rfl, rfl,
    (C9_propless_itemscope_transparent "" "div" "div" [⟨"itemscope", ""⟩]
      [⟨"itemscope", ""⟩, ⟨"itemtype", "T"⟩]
      (.element "span" [⟨"itemprop", "x"⟩] (.text "v" .nil) .nil) .nil
      (.element "div" [⟨"itemscope", ""⟩]
        (.element "span" [⟨"itemprop", "x"⟩] (.text "v" .nil) .nil) .nil) .nil []
      rfl rfl rfl).2.2,
    rfl⟩

end Microdata
